import Mathlib

/-!
Verification of the blaze Python-sequence compute backend.

This file shallowly embeds the parts of the repository needed to settle the
claims: the value model for Python rows, the row-function compiler
(`recursive_rowfunc` in `blaze/compute/python.py`), the sequence reductions
(`_mean`, `_var`, the truthy `count`), `Distinct`, the dual-path `By`
grouping, `Join` (schema inference from `blaze/expr/table.py` plus
`pair_assemble` and the `toolz.join` pairing), the `summary` constructor,
and the handler-resolution contract of the dispatch engine.

Python machine integers are arbitrary precision, so they embed as `Int`;
Python floats appear only as the exactly representable literals `1e250`
and results of true division on small integers, so they embed as `Rat`.
-/

/-- A date value (result of Python `datetime.date()`). -/
structure DateV where
  year : Nat
  month : Nat
  day : Nat
deriving DecidableEq, Repr

/-- A time value (result of Python `datetime.time()`). -/
structure TimeV where
  hour : Nat
  minute : Nat
  second : Nat
  microsecond : Nat
deriving DecidableEq, Repr

/-- A datetime value. -/
structure DTV where
  year : Nat
  month : Nat
  day : Nat
  hour : Nat
  minute : Nat
  second : Nat
  microsecond : Nat
deriving DecidableEq, Repr

/-- Scalar Python values flowing through the sequence backend. -/
inductive PyAtom where
  | anone
  | aint (n : Int)
  | abool (b : Bool)
  | astr (s : String)
  | arat (q : Rat)
  | adt (d : DTV)
  | adate (d : DateV)
  | atime (t : TimeV)
deriving DecidableEq, Repr

/-- A Python value as handled by the row functions: a scalar, a tuple of
scalars, or a list of scalars.  Tuples and lists compare unequal even with
equal cells, as in Python. -/
inductive PyV where
  | atomv (a : PyAtom)
  | tup (cells : List PyAtom)
  | plist (cells : List PyAtom)
deriving DecidableEq, Repr

/-- Python truthiness for the scalars of the model: `None`, `0`, `False`
and `""` are falsy. -/
def PyAtom.truthy : PyAtom → Bool
  | .anone => false
  | .aint n => n != 0
  | .abool b => b
  | .astr s => s != ""
  | .arat q => q != 0
  | .adt _ => true
  | .adate _ => true
  | .atime _ => true

/-- `compute_up_1d(count, Sequence)` (python.py line 259):
`cytoolz.count(filter(None, seq))` counts only truthy elements. -/
def countCompute (seq : List PyAtom) : Nat :=
  (seq.filter PyAtom.truthy).length

/-- `_mean` (python.py lines 232-238): one pass accumulating
`(total, count)`, then `float(total) / count`. -/
def _mean (seq : List Rat) : Rat :=
  let p := seq.foldl (fun acc item => (acc.1 + item, acc.2 + 1)) ((0 : Rat), (0 : Rat))
  p.1 / p.2

/-- `_var` (python.py lines 241-250): one pass accumulating
`(total, total_squared, count)`, then
`(total_squared - total * total / count) / (count - unbiased)`,
where the Boolean `unbiased` coerces to `1` or `0` as in Python. -/
def _var (seq : List Rat) (unbiased : Bool) : Rat :=
  let p := seq.foldl
    (fun acc item => (acc.1 + item, acc.2.1 + item * item, acc.2.2 + 1))
    ((0 : Rat), (0 : Rat), (0 : Rat))
  (p.2.1 - p.1 * p.1 / p.2.2) / (p.2.2 - if unbiased then 1 else 0)

/-- `cytoolz.unique` keeps the first occurrence of each element; `seen` is
the set of already-yielded elements. -/
def uniqueFrom [DecidableEq α] (seen : List α) : List α → List α
  | [] => []
  | x :: xs => if x ∈ seen then uniqueFrom seen xs else x :: uniqueFrom (x :: seen) xs

/-- `cytoolz.unique` on a whole sequence. -/
def uniqueList [DecidableEq α] (l : List α) : List α :=
  uniqueFrom [] l

/-- Whether a row is a Python list (as opposed to a tuple or a scalar). -/
def PyV.isPyList : PyV → Bool
  | .plist _ => true
  | _ => false

/-- Python `tuple(row)`: normalizes a list row to a tuple row.  (On a tuple
it is the identity; scalar rows do not occur for `Distinct`.) -/
def PyV.toTupleRow : PyV → PyV
  | .plist l => .tup l
  | .tup l => .tup l
  | .atomv a => .atomv a

/-- `compute_up(Distinct, Sequence)` (python.py lines 262-273): inspect the
first element (empty input returns `()`), normalize every row to a tuple
when that first row is a list, then de-duplicate keeping first
occurrences. -/
def distinctCompute (seq : List PyV) : List PyV :=
  match seq with
  | [] => []
  | row :: _ =>
    let seq2 := if row.isPyList then seq.map PyV.toTupleRow else seq
    uniqueList seq2

/-- Find the value bound to key `k` in an association list. -/
def assocFind [DecidableEq K] (k : K) : List (K × V) → Option V
  | [] => none
  | p :: rest => if p.1 = k then some p.2 else assocFind k rest

/-- Replace the binding of key `k` in an association list, appending it if
absent (Python dict assignment, insertion order preserved). -/
def assocSet [DecidableEq K] (k : K) (v : V) : List (K × V) → List (K × V)
  | [] => [(k, v)]
  | p :: rest => if p.1 = k then (k, v) :: rest else p :: assocSet k v rest

/-- `cytoolz.reduceby(key, binop, seq, init)`: a single-pass grouped fold
into a dict whose iteration order is first-seen key order. -/
def reduceby [DecidableEq K] (key : A → K) (binop : B → A → B) (seq : List A)
    (init : B) : List (K × B) :=
  seq.foldl
    (fun d x =>
      let k := key x
      match assocFind k d with
      | some acc => assocSet k (binop acc x) d
      | none => d ++ [(k, binop init x)])
    []

/-- `cytoolz.groupby(key, seq)`: materialize all rows, grouped by key,
group order being first-seen key order, rows kept in input order. -/
def groupby [DecidableEq K] (key : A → K) (seq : List A) : List (K × List A) :=
  seq.foldl
    (fun d x =>
      let k := key x
      match assocFind k d with
      | some rows => assocSet k (rows ++ [x]) d
      | none => d ++ [(k, [x])])
    []

/-- Numeric reading of a scalar for Python comparisons and statistics
(`True`/`False` count as `1`/`0`). -/
def PyAtom.toQ : PyAtom → Rat
  | .aint n => (n : Rat)
  | .arat q => q
  | .abool b => if b then 1 else 0
  | _ => 0

/-- Whether a scalar is numeric (so Python `<`, `+` are defined on it). -/
def PyAtom.isNum : PyAtom → Bool
  | .aint _ => true
  | .arat _ => true
  | .abool _ => true
  | _ => false

/-- `operator.add` on the numbers the backend folds over; an `Int` result
stays an `Int`, mixed arithmetic promotes to `Rat` as Python promotes to
float. -/
def pyAdd : PyAtom → PyAtom → PyAtom
  | .aint a, .aint b => .aint (a + b)
  | .aint a, .abool b => .aint (a + if b then 1 else 0)
  | .abool a, .aint b => .aint ((if a then 1 else 0) + b)
  | .abool a, .abool b => .aint ((if a then 1 else 0) + if b then 1 else 0)
  | a, b => if a.isNum && b.isNum then .arat (a.toQ + b.toQ) else .anone

/-- Python `x < y` on numbers (`False` elsewhere, a stand-in for the
`TypeError` Python raises on unordered operands). -/
def pyLt (x y : PyAtom) : Bool :=
  x.isNum && y.isNum && decide (x.toQ < y.toQ)

/-- `lesser = lambda x, y: x if x < y else y` (python.py line 296). -/
def lesser (x y : PyAtom) : PyAtom :=
  if pyLt x y then x else y

/-- `greater = lambda x, y: x if x > y else y` (python.py line 297). -/
def greater (x y : PyAtom) : PyAtom :=
  if pyLt y x then x else y

/-- `countit = lambda acc, _: acc + 1` (python.py line 298). -/
def countit (acc : PyAtom) (_ : PyAtom) : PyAtom :=
  pyAdd acc (.aint 1)

/-- `operator.or_` restricted to the booleans the `any` reduction folds
over. -/
def pyOr : PyAtom → PyAtom → PyAtom
  | .abool a, .abool b => .abool (a || b)
  | _, _ => .anone

/-- `operator.and_` restricted to the booleans the `all` reduction folds
over. -/
def pyAnd : PyAtom → PyAtom → PyAtom
  | .abool a, .abool b => .abool (a && b)
  | _, _ => .anone

/-- The reduction node kinds of `blaze.expr` used by the sequence backend
(`std` is left out: its value is an irrational square root).  `var` carries
its `unbiased` flag. -/
inductive RedKind where
  | rsum
  | rmin
  | rmax
  | rcount
  | rany
  | rall
  | rmean
  | rvar (unbiased : Bool)
  | rnunique
deriving DecidableEq, Repr

/-- The `binops` table (python.py lines 310-315): for each reduction kind
with a known streaming accumulator, its `(binop, combiner, init)` triple.
`1e250` is the float literal the source uses as the `min`/`max` seed, and
the source really does pair `max` with the `lesser` combiner.  Kinds
outside the table (`mean`, `var`, `nunique`) answer `none`. -/
def binops : RedKind → Option ((PyAtom → PyAtom → PyAtom) × (PyAtom → PyAtom → PyAtom) × PyAtom)
  | .rsum => some (pyAdd, pyAdd, .aint 0)
  | .rmin => some (lesser, lesser, .arat ((10 : Rat) ^ (250 : Nat)))
  | .rmax => some (greater, lesser, .arat (-((10 : Rat) ^ (250 : Nat))))
  | .rcount => some (countit, pyAdd, .aint 0)
  | .rany => some (pyOr, pyOr, .abool false)
  | .rall => some (pyAnd, pyAnd, .abool true)
  | _ => none

/-- Full (materialized) evaluation of one reduction over a column of
scalars: the `compute_up_1d` handlers of python.py (`builtins.sum`,
`builtins.min`/`max`, truthy `count`, `any`/`all` by truthiness, `_mean`,
`_var`, `len(set(seq))`). -/
def pyReduce : RedKind → List PyAtom → PyAtom
  | .rsum, vals => vals.foldl pyAdd (.aint 0)
  | .rmin, vals =>
    match vals with
    | [] => .anone
    | v :: rest => rest.foldl lesser v
  | .rmax, vals =>
    match vals with
    | [] => .anone
    | v :: rest => rest.foldl greater v
  | .rcount, vals => .aint (countCompute vals)
  | .rany, vals => .abool (vals.any PyAtom.truthy)
  | .rall, vals => .abool (vals.all PyAtom.truthy)
  | .rmean, vals => .arat (_mean (vals.map PyAtom.toQ))
  | .rvar u, vals => .arat (_var (vals.map PyAtom.toQ) u)
  | .rnunique, vals => .aint (uniqueList vals).length

/-- The `apply` part of a `By` node: a single `Reduction`, or a `Summary`
of several, each with the fused row function of its `_child` relative to
the `By`'s common child (`rrowfunc(t.apply._child, t._child)` composed
with extraction of the scalar). -/
inductive ByApply where
  | red (kind : RedKind) (applier : PyV → PyAtom)
  | summ (items : List (RedKind × (PyV → PyAtom)))

/-- A `By` node as the sequence backend consumes it: the fused grouper row
function, whether the grouper's measure is scalar (python.py line 381), and
the apply part. -/
structure ByExpr where
  grouper : PyV → PyV
  grouperScalar : Bool
  apply : ByApply

/-- The guard of `compute_up(By, Sequence)` (python.py lines 371-373): the
apply is a `Reduction` whose type is in `binops`, or a `Summary` all of
whose values are. -/
def byCondition (t : ByExpr) : Bool :=
  match t.apply with
  | .red k _ => (binops k).isSome
  | .summ items => items.all (fun i => (binops i.1).isSome)

/-- `keyfunc` of python.py lines 381-384: a scalar group key is wrapped in
a 1-tuple, a tuple key passes through. -/
def keyCells (scalar : Bool) (k : PyV) : List PyAtom :=
  if scalar then
    match k with
    | .atomv a => [a]
    | .tup l => l.take 1
    | .plist l => l.take 1
  else
    match k with
    | .atomv a => [a]
    | .tup l => l
    | .plist l => l

/-- The single-pass grouped-fold path of `compute_up(By, Sequence)`
(python.py lines 374-375 with `reduce_by_funcs`, lines 341-366), followed
by the common row assembly of line 389. -/
def foldByPath (t : ByExpr) (seq : List PyV) : List PyV :=
  match t.apply with
  | .red k applier =>
    match binops k with
    | some (binop, _, init) =>
      let d := reduceby t.grouper (fun acc x => binop acc (applier x)) seq init
      d.map (fun kv => .tup (keyCells t.grouperScalar kv.1 ++ [kv.2]))
    | none => []
  | .summ items =>
    let inits := items.map (fun i => ((binops i.1).getD (pyAdd, pyAdd, .anone)).2.2)
    let binop2 := fun (accs : List PyAtom) (x : PyV) =>
      (items.zip accs).map
        (fun p => (((binops p.1.1).getD (pyAdd, pyAdd, .anone)).1) p.2 (p.1.2 x))
    let d := reduceby t.grouper binop2 seq inits
    d.map (fun kv => .tup (keyCells t.grouperScalar kv.1 ++ kv.2))

/-- Per-group evaluation of the apply expression for the fallback path:
`compute(t.apply, {t._child: v})` over the materialized group rows, with
the scalar result of a lone `Reduction` wrapped by `valfunc`
(python.py lines 385-388). -/
def applyCells (a : ByApply) (rows : List PyV) : List PyAtom :=
  match a with
  | .red k applier => [pyReduce k (rows.map applier)]
  | .summ items => items.map (fun i => pyReduce i.1 (rows.map i.2))

/-- The full-materialization fallback path of `compute_up(By, Sequence)`
(python.py lines 377-379): group the rows, compute the apply per group,
then the common row assembly of line 389. -/
def fallbackByPath (t : ByExpr) (seq : List PyV) : List PyV :=
  let groups := groupby t.grouper seq
  groups.map (fun kv => .tup (keyCells t.grouperScalar kv.1 ++ applyCells t.apply kv.2))

/-- `compute_up(By, Sequence)` (python.py lines 369-389): grouped fold when
every reduction of the apply has a registered streaming accumulator, full
materialization per group otherwise. -/
def computeBy (t : ByExpr) (seq : List PyV) : List PyV :=
  if byCondition t then foldByPath t seq else fallbackByPath t seq

/-- Indexing a row tuple, `x[i]` (ill-typed access yields the junk value
`None` where Python would raise). -/
def PyV.cellAt : PyV → Nat → PyAtom
  | .tup l, i => l.getD i .anone
  | .plist l, i => l.getD i .anone
  | .atomv _, _ => .anone

/-- `concat_maybe_tuples` (python.py lines 150-162): tuple and list values
are spliced flat, scalars contribute one element. -/
def concat_maybe_tuples (vals : List PyV) : PyV :=
  .tup (vals.flatMap (fun v =>
    match v with
    | .tup l => l
    | .plist l => l
    | .atomv a => [a]))

/-- The datetime attributes served by `rowfunc(DateTime)`. -/
inductive DTAttr where
  | year
  | month
  | day
  | hour
  | minute
  | second
  | microsecond
deriving DecidableEq, Repr

/-- `getattr(row, attr)` for a datetime scalar. -/
def DTV.attrGet (d : DTV) : DTAttr → Nat
  | .year => d.year
  | .month => d.month
  | .day => d.day
  | .hour => d.hour
  | .minute => d.minute
  | .second => d.second
  | .microsecond => d.microsecond

mutual
/-- A chain of element-wise nodes above a stop ancestor, as walked by
`recursive_rowfunc` (python.py lines 58-74).  `stop` marks the designated
stop ancestor (whose own transform is never applied; `rowfunc(Symbol)` is
the identity).  Each node carries the data its compiled row transform
closes over: `proj` and `field` the indices already resolved against the
child's fields, `broadcast` the scalar operator and its operand indices
within the row tuple (the closure built from
`core.columnwise_funcstr`), `emap` the user function of `Map`, `lbl` the
no-op transform of `Label`/`ReLabel`, the datetime nodes their attribute,
and `mergeN` the element-wise branches rooted at the merge's own child
together with that child chain. -/
inductive EW where
  | stop : EW
  | proj (indices : List Nat) (child : EW) : EW
  | field (index : Nat) (child : EW) : EW
  | broadcast (op : List PyAtom → PyAtom) (indices : List Nat) (child : EW) : EW
  | emap (f : PyV → PyV) (child : EW) : EW
  | lbl (child : EW) : EW
  | dtAttr (attr : DTAttr) (child : EW) : EW
  | dateOf (child : EW) : EW
  | timeOf (child : EW) : EW
  | msOf (child : EW) : EW
  | mergeN (branches : EWs) (child : EW) : EW
/-- A list of element-wise branch chains (the children of a `Merge`). -/
inductive EWs where
  | nil : EWs
  | cons (b : EW) (rest : EWs) : EWs
end

mutual
/-- `recursive_rowfunc(t, stop)` (python.py lines 58-74): compose each
node's row transform walking from `t` down to the stop ancestor;
`compose` applies the innermost transform (closest to the stop) first. -/
def rrowfunc : EW → PyV → PyV
  | .stop, v => v
  | .proj idxs c, v => .tup (idxs.map ((rrowfunc c v).cellAt))
  | .field i c, v => .atomv ((rrowfunc c v).cellAt i)
  | .broadcast op idxs c, v => .atomv (op (idxs.map ((rrowfunc c v).cellAt)))
  | .emap f c, v => f (rrowfunc c v)
  | .lbl c, v => rrowfunc c v
  | .dtAttr a c, v =>
    match rrowfunc c v with
    | .atomv (.adt d) => .atomv (.aint (d.attrGet a))
    | _ => .atomv .anone
  | .dateOf c, v =>
    match rrowfunc c v with
    | .atomv (.adt d) => .atomv (.adate ⟨d.year, d.month, d.day⟩)
    | _ => .atomv .anone
  | .timeOf c, v =>
    match rrowfunc c v with
    | .atomv (.adt d) => .atomv (.atime ⟨d.hour, d.minute, d.second, d.microsecond⟩)
    | _ => .atomv .anone
  | .msOf c, v =>
    match rrowfunc c v with
    | .atomv (.adt d) => .atomv (.aint (d.microsecond / 1000))
    | _ => .atomv .anone
  | .mergeN bs c, v => concat_maybe_tuples (rrowfuncs bs (rrowfunc c v))
/-- The juxtaposed fused branch functions of `rowfunc(Merge)`
(python.py lines 179-182): every branch evaluated against the same value. -/
def rrowfuncs : EWs → PyV → List PyV
  | .nil, _ => []
  | .cons b rest, v => rrowfunc b v :: rrowfuncs rest v
end

/-- `rowfunc(t)`: the local row transform of the topmost node alone
(python.py lines 80-182), i.e. `recursive_rowfunc(t, t._child)`. -/
def rowfunc : EW → PyV → PyV
  | .stop, v => v
  | .proj idxs _, v => .tup (idxs.map v.cellAt)
  | .field i _, v => .atomv (v.cellAt i)
  | .broadcast op idxs _, v => .atomv (op (idxs.map v.cellAt))
  | .emap f _, v => f v
  | .lbl _, v => v
  | .dtAttr a _, v =>
    match v with
    | .atomv (.adt d) => .atomv (.aint (d.attrGet a))
    | _ => .atomv .anone
  | .dateOf _, v =>
    match v with
    | .atomv (.adt d) => .atomv (.adate ⟨d.year, d.month, d.day⟩)
    | _ => .atomv .anone
  | .timeOf _, v =>
    match v with
    | .atomv (.adt d) => .atomv (.atime ⟨d.hour, d.minute, d.second, d.microsecond⟩)
    | _ => .atomv .anone
  | .msOf _, v =>
    match v with
    | .atomv (.adt d) => .atomv (.aint (d.microsecond / 1000))
    | _ => .atomv .anone
  | .mergeN bs _, v => concat_maybe_tuples (rrowfuncs bs v)

/-- Node-by-node bottom-up evaluation: at each node
`compute_up(ElemWise, Sequence)` (python.py lines 185-191) maps that
node's own `rowfunc` over the child's fully computed sequence (the chain's
rows are one-dimensional, so `deepmap` with `n = 1` is `map`). -/
def computeChain : EW → List PyV → List PyV
  | .stop, data => data
  | .proj idxs c, data => (computeChain c data).map (rowfunc (.proj idxs c))
  | .field i c, data => (computeChain c data).map (rowfunc (.field i c))
  | .broadcast op idxs c, data => (computeChain c data).map (rowfunc (.broadcast op idxs c))
  | .emap f c, data => (computeChain c data).map (rowfunc (.emap f c))
  | .lbl c, data => (computeChain c data).map (rowfunc (.lbl c))
  | .dtAttr a c, data => (computeChain c data).map (rowfunc (.dtAttr a c))
  | .dateOf c, data => (computeChain c data).map (rowfunc (.dateOf c))
  | .timeOf c, data => (computeChain c data).map (rowfunc (.timeOf c))
  | .msOf c, data => (computeChain c data).map (rowfunc (.msOf c))
  | .mergeN bs c, data => (computeChain c data).map (rowfunc (.mergeN bs c))

/-- A datashape measure type for join schemas: a base scalar type or an
`Option` wrapper. -/
inductive DType where
  | base (name : String)
  | opt (t : DType)
deriving DecidableEq, Repr

/-- The `option` helper of `Join.schema` (table.py line 260):
`dt if isinstance(dt, Option) else Option(dt)`. -/
def optionWrap : DType → DType
  | .opt t => .opt t
  | t => .opt t

/-- The four join kinds. -/
inductive JoinHow where
  | inner
  | jleft
  | jright
  | outer
deriving DecidableEq, Repr

/-- Whether `needle` is an initial segment of `hay`. -/
def listStarts [DecidableEq α] : List α → List α → Bool
  | [], _ => true
  | _ :: _, [] => false
  | a :: as, b :: bs => a = b && listStarts as bs

/-- Whether `needle` occurs contiguously inside `hay` — Python's
`needle in hay` on strings, evaluated over their character lists. -/
def listContainsSub [DecidableEq α] (needle : List α) : List α → Bool
  | [] => decide (needle = [])
  | x :: xs => listStarts needle (x :: xs) || listContainsSub needle xs

/-- The key specification a `Join` carries.  `join` (table.py lines
279-302) stores a tuple for a list of key columns and leaves a bare
string alone, and the `on_left`/`on_right` properties (table.py lines
230-242) hand back a list for a tuple and the plain string otherwise —
so downstream code sees either a string (single-key joins such as
`join(l, r, 'id')`) or a list of strings. -/
inductive JKeys where
  | single (s : String)
  | multi (keys : List String)
deriving DecidableEq, Repr

/-- Python `name in on` as `Join.schema` evaluates it (table.py lines
262-269): list membership when `on` is a list of key names, but
SUBSTRING containment when `on` is the plain string of a single-key join
— e.g. `'i' in 'id'` is true. -/
def JKeys.keyContains : JKeys → String → Bool
  | .single s, name => listContainsSub name.toList s.toList
  | .multi l, name => decide (name ∈ l)

/-- Modelled from the spec: `listpack` (from `blaze/data/utils.py`, which
is not under `src/`) normalizes the stored key specification to a list of
key column names — the row-assembly contract of spec section 4.4 treats
the key columns as a list, so a bare single key wraps in a one-element
list. -/
def JKeys.listpack : JKeys → List String
  | .single s => [s]
  | .multi l => l

/-- A `Join` expression as both `Join.schema` (table.py lines 244-276) and
the sequence backend (python.py lines 392-458) consume it: the two
children's record schemas (ordered `name -> type` lists) and the key
specifications. -/
structure JoinExpr where
  lhsSchema : List (String × DType)
  rhsSchema : List (String × DType)
  onLeft : JKeys
  onRight : JKeys
  how : JoinHow
deriving Repr

/-- `t.lhs.fields`. -/
def JoinExpr.lhsFields (t : JoinExpr) : List String :=
  t.lhsSchema.map Prod.fst

/-- `t.rhs.fields`. -/
def JoinExpr.rhsFields (t : JoinExpr) : List String :=
  t.rhsSchema.map Prod.fst

/-- `Join.schema` (table.py lines 244-276): the columns whose name the
`in` test relates to `on_left` once (left schema order), then the
remaining left columns, then the remaining right columns; the left
non-keys are `Option`-wrapped for `right`/`outer` joins and the right
non-keys for `left`/`outer` joins.  The key-column selection uses
Python's `in` against `self.on_left` itself (`keyContains`), which is a
substring test for single string keys. -/
def joinSchema (t : JoinExpr) : List (String × DType) :=
  let joined := t.lhsSchema.filter (fun p => t.onLeft.keyContains p.1)
  let leftC := t.lhsSchema.filter (fun p => !(t.onLeft.keyContains p.1))
  let rightC := t.rhsSchema.filter (fun p => !(t.onRight.keyContains p.1))
  let leftC := if t.how = .jright ∨ t.how = .outer
    then leftC.map (fun p => (p.1, optionWrap p.2)) else leftC
  let rightC := if t.how = .jleft ∨ t.how = .outer
    then rightC.map (fun p => (p.1, optionWrap p.2)) else rightC
  joined ++ leftC ++ rightC

/-- A materialized data row of a join operand: one cell per field, `anone`
standing for Python `None`. -/
abbrev JRow : Type := List PyAtom

/-- `fields.index(name)`. -/
def fieldIndex (fields : List String) (name : String) : Nat :=
  fields.indexOf name

/-- Cell access `row[i]`. -/
def getCell (row : JRow) (i : Nat) : PyAtom :=
  row.getD i .anone

/-- `listpack(t.on_left)` resolved to indices (python.py line 398/443) —
the compute side works on the packed key LIST, by list membership, unlike
`Join.schema`. -/
def JoinExpr.onLeftIdx (t : JoinExpr) : List Nat :=
  t.onLeft.listpack.map (fieldIndex t.lhsFields)

/-- `listpack(t.on_right)` resolved to indices (python.py line 399/444). -/
def JoinExpr.onRightIdx (t : JoinExpr) : List Nat :=
  t.onRight.listpack.map (fieldIndex t.rhsFields)

/-- `left_self_columns` (python.py lines 401-402): indices of the left
fields outside `listpack(on_left)`, in left schema order. -/
def JoinExpr.leftSelfIdx (t : JoinExpr) : List Nat :=
  (t.lhsFields.filter (fun c => c ∉ t.onLeft.listpack)).map (fieldIndex t.lhsFields)

/-- `right_self_columns` (python.py lines 403-404). -/
def JoinExpr.rightSelfIdx (t : JoinExpr) : List Nat :=
  (t.rhsFields.filter (fun c => c ∉ t.onRight.listpack)).map (fieldIndex t.rhsFields)

/-- The row assembler returned by `pair_assemble` (python.py lines
405-424): key cells (from the left row, else from the right), then the
left non-key cells or a `None` fill of size `len(lhs.fields) -
len(on_left)`, then the right non-key cells or a `None` fill of size
`len(rhs.fields) - len(on_right)`. -/
def assemble (t : JoinExpr) (pair : Option JRow × Option JRow) : JRow :=
  let joined :=
    match pair.1 with
    | some a => t.onLeftIdx.map (getCell a)
    | none =>
      match pair.2 with
      | some b => t.onRightIdx.map (getCell b)
      | none => []
  let leftEntries :=
    match pair.1 with
    | some a => t.leftSelfIdx.map (getCell a)
    | none => List.replicate (t.lhsFields.length - t.onLeftIdx.length) PyAtom.anone
  let rightEntries :=
    match pair.2 with
    | some b => t.rightSelfIdx.map (getCell b)
    | none => List.replicate (t.rhsFields.length - t.onRightIdx.length) PyAtom.anone
  joined ++ leftEntries ++ rightEntries

/-- `toolz.join(on_left, lhs, on_right, rhs, left_default, right_default)`
specialized to index-list keys: the left side is materialized into a
key-grouped dict, the right side streams; each right row pairs with every
left match, an unmatched right row pairs with `left_default` when that
default exists (here encoded by the flag `leftDflt`, Python `None` being
the only default the caller passes), and after the stream is exhausted
every left row under a key never seen on the right pairs with
`right_default` when that default exists. -/
def toolzJoin (onL onR : List Nat) (lhs rhs : List JRow)
    (leftDflt rightDflt : Bool) : List (Option JRow × Option JRow) :=
  let d := groupby (fun r => onL.map (getCell r)) lhs
  let step := rhs.foldl
    (fun (acc : List (Option JRow × Option JRow) × List (List PyAtom)) item =>
      let k := onR.map (getCell item)
      let out :=
        match assocFind k d with
        | some found => acc.1 ++ found.map (fun m => (some m, some item))
        | none => acc.1 ++ (if leftDflt then [((none : Option JRow), some item)] else [])
      (out, acc.2 ++ [k]))
    ([], [])
  step.1 ++
    (if rightDflt then
      (d.filter (fun kv => kv.1 ∉ step.2)).flatMap
        (fun kv => kv.2.map (fun m => (some m, (none : Option JRow))))
    else [])

/-- `compute_up(Join, Sequence, Sequence)` (python.py lines 427-458):
defaults chosen from `how`, pairs from `toolz.join`, rows assembled by
`pair_assemble`. -/
def computeJoin (t : JoinExpr) (lhs rhs : List JRow) : List JRow :=
  let leftDflt := t.how = .jright ∨ t.how = .outer
  let rightDflt := t.how = .jleft ∨ t.how = .outer
  let pairs := toolzJoin t.onLeftIdx t.onRightIdx lhs rhs
    (decide leftDflt) (decide rightDflt)
  pairs.map (assemble t)

/-- The value of the column called `name` in a data row laid out by
`fields`. -/
def lookupCell (fields : List String) (row : JRow) (name : String) : PyAtom :=
  getCell row (fieldIndex fields name)

/-- The result shapes a reduction handler can return: a scalar, a tuple
(the result of a `Summary`, or a `keepdims` 1-tuple around a scalar), or a
1-tuple around a tuple (a `keepdims` `Summary`). -/
inductive RedResult where
  | scalar (a : PyAtom)
  | tupR (cells : List PyAtom)
  | tup1 (cells : List PyAtom)
deriving DecidableEq, Repr

/-- A `Reduction` node as `compute_up(Reduction, Sequence)` consumes it:
its kind, its `axis` tuple, and its `keepdims` flag. -/
structure RedNode where
  kind : RedKind
  axis : List Nat
  keepdims : Bool
deriving Repr

/-- `compute_up(Reduction, Sequence)` (python.py lines 200-208): any axis
other than `(0,)` raises `NotImplementedError` before the data is
touched; otherwise `compute_up_1d` runs and `keepdims` wraps the scalar in
a 1-tuple. -/
def computeReduction (t : RedNode) (seq : List PyAtom) : Except String RedResult :=
  if t.axis ≠ [0] then
    .error "Only 1D reductions currently supported"
  else
    let result := pyReduce t.kind seq
    if t.keepdims then .ok (.tup1 [result]) else .ok (.scalar result)

/-- A `Summary` node as `compute_up(Summary, Sequence)` consumes it: the
dimensionality of its child, its named reductions, its `keepdims` flag. -/
structure SummaryNode where
  childNdim : Nat
  items : List (String × RedKind)
  keepdims : Bool
deriving Repr

/-- `compute_up(Summary, Sequence)` (python.py lines 495-510): a child of
dimensionality other than 1 raises `NotImplementedError`; otherwise every
named reduction is evaluated over the sequence in order and `keepdims`
wraps the result tuple once more. -/
def computeSummary (t : SummaryNode) (seq : List PyAtom) : Except String RedResult :=
  if t.childNdim ≠ 1 then
    .error "Only 1D reductions currently supported"
  else
    let result := t.items.map (fun i => pyReduce i.2 seq)
    if t.keepdims then .ok (.tup1 result) else .ok (.tupR result)

/-- A `Summary` expression: its field names and its reduction values,
paired positionally (`Summary.__slots__ = 'child', 'names', 'values'`,
table.py line 454; the `child` is irrelevant to the ordering claim). -/
structure SummaryExpr (α : Type) where
  names : List String
  values : List α
deriving DecidableEq, Repr

/-- One step of the sort underlying Python
`sorted(kwargs.items(), key=first)`: insert a pair before the first
resident with a key not below it. -/
def sortedInsert (p : String × α) : List (String × α) → List (String × α)
  | [] => [p]
  | q :: rest => if p.1 ≤ q.1 then p :: q :: rest else q :: sortedInsert p rest

/-- Python `sorted(kwargs.items(), key=first)`: the keyword pairs in
ascending name order. -/
def sortPairs (l : List (String × α)) : List (String × α) :=
  l.foldr sortedInsert []

/-- The `summary(**kwargs)` constructor (table.py lines 466-480): sort the
keyword pairs by name, then store the names and the values in that shared
order.  Python keyword arguments form an unordered name-to-value mapping,
embedded here as a list of pairs with distinct names considered up to
permutation. -/
def summaryExpr (kwargs : List (String × α)) : SummaryExpr α :=
  let items := sortPairs kwargs
  ⟨items.map Prod.fst, items.map Prod.snd⟩

/-- Modelled from the spec: the runtime-type patterns of the
multiple-dispatch engine.  The dispatch machinery itself
(`blaze/dispatch.py` and the `multipledispatch` registry whose ordering is
toggled by `halt_ordering`/`restart_ordering` in `src/blaze/__init__.py`)
is not part of the traced source; spec section 4.3 describes handler
resolution over "abstract any-sequence / any-real-number categories" with
subtype-compatible matching.  A small representative type universe with a
subtype relation suffices. -/
inductive DisTy where
  | anyT
  | seqT
  | listT
  | iterT
  | realT
  | intT
deriving DecidableEq, Repr

/-- Modelled from the spec: the subtype/`isinstance` compatibility between
runtime types and pattern categories (`list` and `iterator` are sequences,
`int` is a real number, everything matches `any`). -/
def subTy : DisTy → DisTy → Bool
  | _, .anyT => true
  | .listT, .seqT => true
  | .iterT, .seqT => true
  | .intT, .realT => true
  | a, b => a = b

/-- Modelled from the spec: a registered handler pattern matches the tuple
of runtime argument types when it has the same arity and every argument
type is subtype-compatible with the pattern slot (spec section 4.3 step
3). -/
def patMatches (pat : List DisTy) (args : List DisTy) : Bool :=
  pat.length = args.length && (args.zip pat).all (fun q => subTy q.1 q.2)

/-- Modelled from the spec: pattern `p` is at least as specific as `q`
when it has the same arity and every slot of `p` is subtype-compatible
with the corresponding slot of `q`. -/
def atLeastAsSpecific (p q : List DisTy) : Bool :=
  p.length = q.length && (p.zip q).all (fun r => subTy r.1 r.2)

/-- Modelled from the spec: strictly more specific. -/
def strictlyMoreSpecific (p q : List DisTy) : Bool :=
  atLeastAsSpecific p q && !atLeastAsSpecific q p

/-- Modelled from the spec: a handler registry for one node kind, in
registration order (handlers named by their registration number). -/
def Registry : Type := List (List DisTy × Nat)

/-- Modelled from the spec: handler resolution of the dispatch engine
(spec section 4.3 step 3): among the registered handlers whose pattern
matches the runtime argument types, choose the most specific, and break
ties by registration order — "first-registered wins".  Resolution is
total over the matching handlers: no ambiguity error exists in this path
(spec section 9 records that the source breaks ambiguous registrations by
registration order implicitly), hence the return type has no error case
beyond "no handler matched". -/
def resolveHandler (reg : Registry) (args : List DisTy) : Option (List DisTy × Nat) :=
  let matching := reg.filter (fun h => patMatches h.1 args)
  matching.foldl
    (fun best h =>
      match best with
      | none => some h
      | some b => if strictlyMoreSpecific h.1 b.1 then some h else some b)
    none

/-- The grouping example of the spec: rows
`[('Alice',100,1),('Bob',200,2),('Alice',50,3)]`. -/
def byRowsEx : List PyV :=
  [.tup [.astr "Alice", .aint 100, .aint 1],
   .tup [.astr "Bob", .aint 200, .aint 2],
   .tup [.astr "Alice", .aint 50, .aint 3]]

/-- `by(t['name'], t['amount'].sum())` over a
`{name, amount, id}` table: the grouper is the fused row function of
`t['name']` (scalar measure), the apply a `sum` reduction whose applier
extracts `amount`. -/
def byEx : ByExpr :=
  ⟨fun r => .atomv (r.cellAt 0), true, .red .rsum (fun r => r.cellAt 1)⟩

/-- The same grouping with a `mean` apply, whose reduction kind is outside
the `binops` table. -/
def byMeanEx : ByExpr :=
  ⟨fun r => .atomv (r.cellAt 0), true, .red .rmean (fun r => r.cellAt 1)⟩

/-- The join example of the spec: left data `[(1, 'a')]`. -/
def joinLhsEx : List JRow := [[.aint 1, .astr "a"]]

/-- The join example of the spec: right data `[(2, 'b')]`. -/
def joinRhsEx : List JRow := [[.aint 2, .astr "b"]]

/-- The join example of the spec: both sides keyed on column 0 (a
single-key join, so the keys are stored as plain strings), `how='outer'`. -/
def joinOuterEx : JoinExpr :=
  ⟨[("a0", .base "int"), ("a1", .base "string")],
   [("b0", .base "int"), ("b1", .base "string")],
   .single "a0", .single "b0", .outer⟩

/-- The join example with `how='inner'`. -/
def joinInnerEx : JoinExpr :=
  ⟨[("a0", .base "int"), ("a1", .base "string")],
   [("b0", .base "int"), ("b1", .base "string")],
   .single "a0", .single "b0", .inner⟩

/-- A well-formed join whose key lists are ordered differently from the
left schema: both children have fields `x, y` (both `int`, so the key
schemas match and `join` accepts it), joined on `['y', 'x']`. -/
def joinSwapEx : JoinExpr :=
  ⟨[("x", .base "int"), ("y", .base "int")],
   [("x", .base "int"), ("y", .base "int")],
   .multi ["y", "x"], .multi ["y", "x"], .inner⟩

/-- A single-key join with a substring-colliding field name: left fields
`i, id` joined with right fields `id, v` on the plain string key `'id'`
(the result of `join(l, r, 'id')`).  `Join.schema`'s `'i' in 'id'` test
is true, so the schema counts `i` among the key columns, while
`pair_assemble` keys only on `id`. -/
def joinSubstrEx : JoinExpr :=
  ⟨[("i", .base "int"), ("id", .base "int")],
   [("id", .base "int"), ("v", .base "int")],
   .single "id", .single "id", .inner⟩

/-- C3: on the input sequence `[1,2,3,4]` the Python backend reductions
compute `sum = 10`, `mean = 5/2 = 2.5`, `count = 4`,
`var(unbiased=False) = 5/4 = 1.25` and `var(unbiased=True) = 5/3`
(the claim's `1.6667`), `var` being the single-pass
`(sum_of_squares - sum^2/count) / (count - unbiased)` formula embodied in
`_var`. -/
theorem c3_reduction_values :
    pyReduce .rsum [.aint 1, .aint 2, .aint 3, .aint 4] = .aint 10 ∧
    pyReduce .rmean [.aint 1, .aint 2, .aint 3, .aint 4] = .arat (5 / 2) ∧
    countCompute [.aint 1, .aint 2, .aint 3, .aint 4] = 4 ∧
    pyReduce (.rvar false) [.aint 1, .aint 2, .aint 3, .aint 4] = .arat (5 / 4) ∧
    pyReduce (.rvar true) [.aint 1, .aint 2, .aint 3, .aint 4] = .arat (5 / 3) ∧
    _mean [1, 2, 3, 4] = 5 / 2 ∧
    _var [1, 2, 3, 4] false = 5 / 4 ∧
    _var [1, 2, 3, 4] true = 5 / 3 := by
  refine ⟨by decide, ?_, by decide, ?_, ?_, ?_, ?_, ?_⟩ <;>
    simp only [pyReduce, List.map, PyAtom.toQ, _mean, _var, List.foldl] <;> norm_num

/-- C9: the sequence backend's `count` counts only truthy elements:
appending `None`, `0`, `False` or `""` to a sequence never changes its
count, and on `[0, 1, None]` the count is `1`, not the length `3`. -/
theorem c9_count_truthy :
    countCompute [.aint 0, .aint 1, .anone] = 1 ∧
    ([PyAtom.aint 0, .aint 1, .anone] : List PyAtom).length = 3 ∧
    (∀ seq : List PyAtom, countCompute (seq ++ [.anone]) = countCompute seq) ∧
    (∀ seq : List PyAtom, countCompute (seq ++ [.aint 0]) = countCompute seq) ∧
    (∀ seq : List PyAtom, countCompute (seq ++ [.abool false]) = countCompute seq) ∧
    (∀ seq : List PyAtom, countCompute (seq ++ [.astr ""]) = countCompute seq) := by
  refine ⟨by decide, by decide, ?_, ?_, ?_, ?_⟩ <;>
    intro seq <;> simp [countCompute, List.filter_append, PyAtom.truthy]

/-- C6: a `Reduction` whose axis is not `(0,)`, and a `Summary` whose
child is not one-dimensional, both fail fast at evaluation with the
`NotImplementedError` message `'Only 1D reductions currently supported'`,
for every input sequence. -/
theorem c6_non1d_reduction_error :
    (∀ (t : RedNode) (seq : List PyAtom), t.axis ≠ [0] →
      computeReduction t seq = .error "Only 1D reductions currently supported") ∧
    (∀ (s : SummaryNode) (seq : List PyAtom), s.childNdim ≠ 1 →
      computeSummary s seq = .error "Only 1D reductions currently supported") := by
  constructor
  · intro t seq h
    unfold computeReduction
    rw [if_pos h]
  · intro s seq h
    unfold computeSummary
    rw [if_pos h]

/-- Witness for C6: a `sum` over axis `(1,)` and a summary over a
two-dimensional child both error on a concrete sequence. -/
theorem c6_witness :
    computeReduction ⟨.rsum, [1], false⟩ [.aint 1, .aint 2] =
      .error "Only 1D reductions currently supported" ∧
    computeSummary ⟨2, [("n", .rcount)], false⟩ [.aint 1, .aint 2] =
      .error "Only 1D reductions currently supported" :=
  ⟨c6_non1d_reduction_error.1 ⟨.rsum, [1], false⟩ [.aint 1, .aint 2] (by decide),
   c6_non1d_reduction_error.2 ⟨2, [("n", .rcount)], false⟩ [.aint 1, .aint 2] (by decide)⟩

/-- C1: `compute_up(By, Sequence)` uses the single-pass grouped fold
exactly when the apply's reduction kind(s) all come from the `binops`
table (`sum`, `min`, `max`, `count`, `any`, `all`), and otherwise falls
back to full per-group materialization; on the rows
`[('Alice',100,1),('Bob',200,2),('Alice',50,3)]`,
`by(t['name'], t['amount'].sum())` computes to
`{('Alice',150), ('Bob',200)}` (listed here in first-seen key order, the
claim reads the result as an unordered set, hence the membership
conjunct). -/
theorem c1_by_grouped_fold :
    (∀ (t : ByExpr) (seq : List PyV), byCondition t = true →
      computeBy t seq = foldByPath t seq) ∧
    (∀ (t : ByExpr) (seq : List PyV), byCondition t = false →
      computeBy t seq = fallbackByPath t seq) ∧
    computeBy byEx byRowsEx =
      [.tup [.astr "Alice", .aint 150], .tup [.astr "Bob", .aint 200]] ∧
    (∀ r, r ∈ computeBy byEx byRowsEx ↔
      r = .tup [.astr "Alice", .aint 150] ∨ r = .tup [.astr "Bob", .aint 200]) := by
  have hex : computeBy byEx byRowsEx =
      [.tup [.astr "Alice", .aint 150], .tup [.astr "Bob", .aint 200]] := by decide
  refine ⟨?_, ?_, hex, ?_⟩
  · intro t seq h
    simp [computeBy, h]
  · intro t seq h
    simp [computeBy, h]
  · intro r
    rw [hex]
    simp

/-- Witness for C1: the `sum` example takes the grouped-fold path, the
same grouping with a `mean` apply takes the fallback path. -/
theorem c1_witness :
    computeBy byEx byRowsEx = foldByPath byEx byRowsEx ∧
    computeBy byMeanEx byRowsEx = fallbackByPath byMeanEx byRowsEx :=
  ⟨c1_by_grouped_fold.1 byEx byRowsEx (by decide),
   c1_by_grouped_fold.2.1 byMeanEx byRowsEx (by decide)⟩

/-- C4: joining left `[(1,'a')]` with right `[(2,'b')]`, keyed on column 0
of each side, with `how='outer'` yields exactly the row with the left
columns present and the right non-key column `None`-filled and the row
with the right columns present and the left non-key column `None`-filled
(the backend emits the unmatched-right row first, the trailing
unmatched-left row second; the claim reads the result as a set, hence the
membership conjunct); with `how='inner'` the result is empty. -/
theorem c4_join_outer_fill :
    computeJoin joinOuterEx joinLhsEx joinRhsEx =
      [[.aint 2, .anone, .astr "b"], [.aint 1, .astr "a", .anone]] ∧
    (∀ r, r ∈ computeJoin joinOuterEx joinLhsEx joinRhsEx ↔
      r = [PyAtom.aint 1, .astr "a", .anone] ∨ r = [PyAtom.aint 2, .anone, .astr "b"]) ∧
    computeJoin joinInnerEx joinLhsEx joinRhsEx = [] := by
  have hres : computeJoin joinOuterEx joinLhsEx joinRhsEx =
      [[.aint 2, .anone, .astr "b"], [.aint 1, .astr "a", .anone]] := by decide
  refine ⟨hres, ?_, by decide⟩
  intro r
  rw [hres]
  simp
  tauto

/-- Node-by-node bottom-up evaluation equals one map of the fused row
function: the inductive heart of the fusion claim. -/
theorem computeChain_fused : ∀ (t : EW) (data : List PyV),
    computeChain t data = data.map (rrowfunc t)
  | .stop, data => by simp [computeChain, rrowfunc]
  | .proj idxs c, data => by
    rw [computeChain, computeChain_fused c, List.map_map]; rfl
  | .field i c, data => by
    rw [computeChain, computeChain_fused c, List.map_map]; rfl
  | .broadcast op idxs c, data => by
    rw [computeChain, computeChain_fused c, List.map_map]; rfl
  | .emap f c, data => by
    rw [computeChain, computeChain_fused c, List.map_map]; rfl
  | .lbl c, data => by
    rw [computeChain, computeChain_fused c, List.map_map]; rfl
  | .dtAttr a c, data => by
    rw [computeChain, computeChain_fused c, List.map_map]; rfl
  | .dateOf c, data => by
    rw [computeChain, computeChain_fused c, List.map_map]; rfl
  | .timeOf c, data => by
    rw [computeChain, computeChain_fused c, List.map_map]; rfl
  | .msOf c, data => by
    rw [computeChain, computeChain_fused c, List.map_map]; rfl
  | .mergeN bs c, data => by
    rw [computeChain, computeChain_fused c, List.map_map]; rfl

/-- C2: for every chain of element-wise nodes above a stop ancestor
(projection, field, broadcast, map, label, datetime attributes, merge of
element-wise branches), mapping the fused row function built by
`recursive_rowfunc` — composed child-to-parent, the transform closest to
the stop ancestor applied first — over a materialized sequence yields
exactly the sequence obtained by dispatching each node individually,
bottom-up. -/
theorem c2_fusion_equivalence : ∀ (t : EW) (data : List PyV),
    data.map (rrowfunc t) = computeChain t data :=
  fun t data => (computeChain_fused t data).symm

/-- Every element emitted by `uniqueFrom` comes from the input and was not
previously seen. -/
theorem mem_uniqueFrom [DecidableEq α] {x : α} :
    ∀ (seen l : List α), x ∈ uniqueFrom seen l → x ∈ l ∧ x ∉ seen
  | seen, [] => by simp [uniqueFrom]
  | seen, y :: ys => by
    simp only [uniqueFrom]
    by_cases h : y ∈ seen
    · rw [if_pos h]
      intro hx
      rcases mem_uniqueFrom seen ys hx with ⟨h1, h2⟩
      exact ⟨List.mem_cons_of_mem _ h1, h2⟩
    · rw [if_neg h]
      intro hx
      rcases List.mem_cons.mp hx with rfl | hx2
      · exact ⟨List.mem_cons_self _ _, h⟩
      · rcases mem_uniqueFrom (y :: seen) ys hx2 with ⟨h1, h2⟩
        exact ⟨List.mem_cons_of_mem _ h1, fun hs => h2 (List.mem_cons_of_mem _ hs)⟩

/-- The output of `uniqueFrom` has no duplicates. -/
theorem nodup_uniqueFrom [DecidableEq α] : ∀ (seen l : List α), (uniqueFrom seen l).Nodup
  | _, [] => List.nodup_nil
  | seen, y :: ys => by
    simp only [uniqueFrom]
    by_cases h : y ∈ seen
    · rw [if_pos h]
      exact nodup_uniqueFrom seen ys
    · rw [if_neg h]
      refine List.nodup_cons.mpr ⟨?_, nodup_uniqueFrom (y :: seen) ys⟩
      intro hy
      exact (mem_uniqueFrom (y :: seen) ys hy).2 (List.mem_cons_self _ _)

/-- `uniqueFrom` is the identity on duplicate-free input disjoint from the
seen set. -/
theorem uniqueFrom_eq_self [DecidableEq α] :
    ∀ (seen l : List α), l.Nodup → (∀ x ∈ l, x ∉ seen) → uniqueFrom seen l = l
  | _, [], _, _ => rfl
  | seen, y :: ys, hnd, hns => by
    simp only [uniqueFrom]
    rw [if_neg (hns y (List.mem_cons_self _ _))]
    congr 1
    refine uniqueFrom_eq_self (y :: seen) ys (List.nodup_cons.mp hnd).2 ?_
    intro x hx hmem
    rcases List.mem_cons.mp hmem with rfl | hseen
    · exact (List.nodup_cons.mp hnd).1 hx
    · exact hns x (List.mem_cons_of_mem _ hx) hseen

/-- First-occurrence de-duplication is idempotent. -/
theorem uniqueList_idem [DecidableEq α] (l : List α) :
    uniqueList (uniqueList l) = uniqueList l :=
  uniqueFrom_eq_self [] (uniqueList l) (nodup_uniqueFrom [] l)
    (fun x _ h => (List.not_mem_nil x) h)

/-- Normalizing a row to a tuple never produces a list row. -/
theorem toTupleRow_not_list (row : PyV) : row.toTupleRow.isPyList = false := by
  cases row <;> rfl

/-- `toTupleRow` is the identity on rows that are not lists. -/
theorem toTupleRow_of_not_list (row : PyV) (h : row.isPyList = false) :
    row.toTupleRow = row := by
  cases row
  · rfl
  · rfl
  · exact absurd h (by simp [PyV.isPyList])

/-- The result of `distinctCompute` on a nonempty input starts with the
(tuple-normalized) first row, which is never a list row. -/
theorem distinctCompute_cons (row : PyV) (rest : List PyV) :
    ∃ t2, distinctCompute (row :: rest) = row.toTupleRow :: t2 := by
  cases hrow : row.isPyList
  · refine ⟨uniqueFrom [row] rest, ?_⟩
    rw [toTupleRow_of_not_list row hrow]
    simp [distinctCompute, hrow, uniqueList, uniqueFrom]
  · refine ⟨uniqueFrom [row.toTupleRow] (rest.map PyV.toTupleRow), ?_⟩
    simp [distinctCompute, hrow, uniqueList, uniqueFrom]

/-- C7: `Distinct` on the Python sequence backend is idempotent — for
every finite sequence, computing distinct twice yields the same row
sequence as computing it once (under the structural equality of the model,
list rows normalized to tuples) — and distinct of an empty sequence is
empty. -/
theorem c7_distinct_idempotent :
    (∀ seq : List PyV, distinctCompute (distinctCompute seq) = distinctCompute seq) ∧
    distinctCompute [] = [] := by
  refine ⟨?_, rfl⟩
  intro seq
  match seq with
  | [] => rfl
  | row :: rest =>
    rcases distinctCompute_cons row rest with ⟨t2, heq⟩
    have hnl : (PyV.toTupleRow row).isPyList = false := toTupleRow_not_list row
    have hd : distinctCompute (row :: rest) =
        uniqueList (if row.isPyList then (row :: rest).map PyV.toTupleRow else row :: rest) := rfl
    calc distinctCompute (distinctCompute (row :: rest))
        = distinctCompute (row.toTupleRow :: t2) := by rw [heq]
      _ = uniqueList (row.toTupleRow :: t2) := by simp [distinctCompute, hnl]
      _ = uniqueList (distinctCompute (row :: rest)) := by rw [heq]
      _ = distinctCompute (row :: rest) := by rw [hd, uniqueList_idem]

/-- Projecting the names out of a filtered schema filters the names. -/
theorem map_fst_filter {α β : Type} (l : List (α × β)) (p : α → Bool) :
    (l.filter (fun q => p q.1)).map Prod.fst = (l.map Prod.fst).filter p := by
  induction l with
  | nil => rfl
  | cons x xs ih =>
    simp only [List.map_cons, List.filter_cons]
    cases hp : p x.1 <;> simp [hp, ih]

/-- In a duplicate-free field list, the fields drawn from a duplicate-free
subset have exactly the subset's cardinality. -/
theorem length_filter_mem (fields keys : List String) (hf : fields.Nodup)
    (hn : keys.Nodup) (hs : ∀ c ∈ keys, c ∈ fields) :
    (fields.filter (fun c => c ∈ keys)).length = keys.length :=
  ((List.perm_ext_iff_of_nodup (hf.filter _) hn).2
    (fun a => by simp only [List.mem_filter, decide_eq_true_eq]
                 exact ⟨fun h => h.2, fun h => ⟨hs a h, h⟩⟩)).length_eq

/-- The complement count: the non-key fields number
`len(fields) - len(on)`. -/
theorem length_filter_not_mem (fields keys : List String) (hf : fields.Nodup)
    (hn : keys.Nodup) (hs : ∀ c ∈ keys, c ∈ fields) :
    (fields.filter (fun c => c ∉ keys)).length = fields.length - keys.length := by
  have hsplit : (fields.filter (fun c => c ∈ keys)).length +
      (fields.filter (fun c => (!(decide (c ∈ keys))))).length = fields.length := by
    rw [← List.countP_eq_length_filter, ← List.countP_eq_length_filter]
    have := (List.length_eq_countP_add_countP (fun c => decide (c ∈ keys)) fields).symm
    simpa using this
  have hmem := length_filter_mem fields keys hf hn hs
  have hforms : (fields.filter (fun c => c ∉ keys)) =
      (fields.filter (fun c => (!(decide (c ∈ keys))))) := by
    simp
  rw [hforms]
  omega

/-- C5 (amended): the claim holds under two side conditions the source
forces.  First, the schema's key-column test must agree with the
assembler's key list: `Join.schema` selects key columns with Python `in`
against `on_left` itself, which for a single string key is a SUBSTRING
test, while `pair_assemble` keys on `listpack(on_left)` — so no other
field name may collide with the key under `in` (automatic for list keys).
Second, the key list must be ordered as its names appear in the child
schema.  Then: the output schema lists the shared/key columns once, then
the left child's non-key columns, then the right child's non-key columns,
wrapping left non-keys in `Option` for `right`/`outer` joins and right
non-keys for `left`/`outer` joins; and each assembled row follows that
same column order — key values, then left non-key values (or a `None`
fill of exactly the left non-key count), then right non-key values (or a
`None` fill of exactly the right non-key count), a right-only row drawing
its key values positionally from `on_right`.  Either side condition can
fail in the source (see the counterexample). -/
theorem c5_join_schema_row_order (t : JoinExpr)
    (hkl : ∀ c ∈ t.lhsFields, t.onLeft.keyContains c = decide (c ∈ t.onLeft.listpack))
    (hkr : ∀ c ∈ t.rhsFields, t.onRight.keyContains c = decide (c ∈ t.onRight.listpack))
    (hl : t.onLeft.listpack = t.lhsFields.filter (fun c => c ∈ t.onLeft.listpack))
    (hr : t.onRight.listpack = t.rhsFields.filter (fun c => c ∈ t.onRight.listpack))
    (hfl : t.lhsFields.Nodup) (hfr : t.rhsFields.Nodup) :
    ((joinSchema t).map Prod.fst =
      t.lhsFields.filter (fun c => c ∈ t.onLeft.listpack) ++
      t.lhsFields.filter (fun c => c ∉ t.onLeft.listpack) ++
      t.rhsFields.filter (fun c => c ∉ t.onRight.listpack)) ∧
    (joinSchema t =
      t.lhsSchema.filter (fun p => p.1 ∈ t.onLeft.listpack) ++
      (t.lhsSchema.filter (fun p => p.1 ∉ t.onLeft.listpack)).map
        (fun p => (p.1, if t.how = .jright ∨ t.how = .outer then optionWrap p.2 else p.2)) ++
      (t.rhsSchema.filter (fun p => p.1 ∉ t.onRight.listpack)).map
        (fun p => (p.1, if t.how = .jleft ∨ t.how = .outer then optionWrap p.2 else p.2))) ∧
    (∀ a b : JRow, assemble t (some a, some b) =
      (t.lhsFields.filter (fun c => c ∈ t.onLeft.listpack)).map (lookupCell t.lhsFields a) ++
      (t.lhsFields.filter (fun c => c ∉ t.onLeft.listpack)).map (lookupCell t.lhsFields a) ++
      (t.rhsFields.filter (fun c => c ∉ t.onRight.listpack)).map (lookupCell t.rhsFields b)) ∧
    (∀ a : JRow, assemble t (some a, none) =
      (t.lhsFields.filter (fun c => c ∈ t.onLeft.listpack)).map (lookupCell t.lhsFields a) ++
      (t.lhsFields.filter (fun c => c ∉ t.onLeft.listpack)).map (lookupCell t.lhsFields a) ++
      List.replicate (t.rhsFields.filter (fun c => c ∉ t.onRight.listpack)).length PyAtom.anone) ∧
    (∀ b : JRow, assemble t (none, some b) =
      t.onRight.listpack.map (lookupCell t.rhsFields b) ++
      List.replicate (t.lhsFields.filter (fun c => c ∉ t.onLeft.listpack)).length PyAtom.anone ++
      (t.rhsFields.filter (fun c => c ∉ t.onRight.listpack)).map (lookupCell t.rhsFields b)) := by
  have holn : t.onLeft.listpack.Nodup := by
    rw [hl]; exact hfl.filter _
  have horn : t.onRight.listpack.Nodup := by
    rw [hr]; exact hfr.filter _
  have hols : ∀ c ∈ t.onLeft.listpack, c ∈ t.lhsFields := by
    intro c hc
    rw [hl] at hc
    exact (List.mem_filter.mp hc).1
  have hors : ∀ c ∈ t.onRight.listpack, c ∈ t.rhsFields := by
    intro c hc
    rw [hr] at hc
    exact (List.mem_filter.mp hc).1
  have hlenL := length_filter_not_mem t.lhsFields t.onLeft.listpack hfl holn hols
  have hlenR := length_filter_not_mem t.rhsFields t.onRight.listpack hfr horn hors
  have hfL : t.lhsSchema.filter (fun p => t.onLeft.keyContains p.1) =
      t.lhsSchema.filter (fun p => decide (p.1 ∈ t.onLeft.listpack)) :=
    List.filter_congr (fun p hp => hkl p.1 (List.mem_map_of_mem Prod.fst hp))
  have hfLn : t.lhsSchema.filter (fun p => !(t.onLeft.keyContains p.1)) =
      t.lhsSchema.filter (fun p => decide (p.1 ∉ t.onLeft.listpack)) :=
    List.filter_congr (fun p hp => by
      rw [hkl p.1 (List.mem_map_of_mem Prod.fst hp)]; simp)
  have hfRn : t.rhsSchema.filter (fun p => !(t.onRight.keyContains p.1)) =
      t.rhsSchema.filter (fun p => decide (p.1 ∉ t.onRight.listpack)) :=
    List.filter_congr (fun p hp => by
      rw [hkr p.1 (List.mem_map_of_mem Prod.fst hp)]; simp)
  have hschema : joinSchema t =
      t.lhsSchema.filter (fun p => p.1 ∈ t.onLeft.listpack) ++
      (t.lhsSchema.filter (fun p => p.1 ∉ t.onLeft.listpack)).map
        (fun p => (p.1, if t.how = .jright ∨ t.how = .outer then optionWrap p.2 else p.2)) ++
      (t.rhsSchema.filter (fun p => p.1 ∉ t.onRight.listpack)).map
        (fun p => (p.1, if t.how = .jleft ∨ t.how = .outer then optionWrap p.2 else p.2)) := by
    by_cases h1 : t.how = .jright ∨ t.how = .outer <;>
      by_cases h2 : t.how = .jleft ∨ t.how = .outer <;>
        simp [joinSchema, h1, h2, hfL, hfLn, hfRn]
  have e1 : ∀ (g : String × DType → DType) (l : List (String × DType)),
      l.map (Prod.fst ∘ fun q => (q.1, g q)) = l.map Prod.fst := fun g l => rfl
  refine ⟨?_, hschema, ?_, ?_, ?_⟩
  · rw [hschema]
    simp only [List.map_append, List.map_map]
    rw [e1, e1]
    simp only [JoinExpr.lhsFields, JoinExpr.rhsFields]
    rw [← map_fst_filter, ← map_fst_filter, ← map_fst_filter]
  · intro a b
    rw [← hl]
    simp only [assemble, JoinExpr.onLeftIdx, JoinExpr.leftSelfIdx, JoinExpr.rightSelfIdx,
      List.map_map]
    rfl
  · intro a
    rw [← hl, hlenR]
    simp only [assemble, JoinExpr.onLeftIdx, JoinExpr.onRightIdx, JoinExpr.leftSelfIdx,
      List.map_map, List.length_map]
    rfl
  · intro b
    rw [hlenL]
    simp only [assemble, JoinExpr.onLeftIdx, JoinExpr.onRightIdx, JoinExpr.rightSelfIdx,
      List.map_map, List.length_map]
    rfl

/-- C5 counterexample, in both single-key and multi-key form.  First the
substring collision of the source's `in` test: `joinSubstrEx` is
`join(l, r, 'id')` with left fields `i, id`; since `'i' in 'id'` is true,
the schema lists `i` among its key columns (`[i, id, v]`) while the
assembler keys only on `id`, so the matched row `(1, 10, 7)` does not
carry the schema-ordered values `(10, 1, 7)` — the claim's row/schema
column-order correspondence fails for a plainly well-formed join.  Second
the reordered multi-key list: `joinSwapEx` joins on `['y','x']` over
fields `[x, y]`, the schema lists keys in schema order `x, y` but the row
carries them in `on_left` order `(2, 1)` against schema-ordered
`(1, 2)`. -/
theorem c5_counterexample :
    (joinSchema joinSubstrEx).map Prod.fst = ["i", "id", "v"] ∧
    assemble joinSubstrEx (some [.aint 10, .aint 1], some [.aint 1, .aint 7]) =
      [.aint 1, .aint 10, .aint 7] ∧
    assemble joinSubstrEx (some [.aint 10, .aint 1], some [.aint 1, .aint 7]) ≠
      (joinSchema joinSubstrEx).map
        (fun p => if p.1 ∈ joinSubstrEx.lhsFields
          then lookupCell joinSubstrEx.lhsFields [PyAtom.aint 10, .aint 1] p.1
          else lookupCell joinSubstrEx.rhsFields [PyAtom.aint 1, .aint 7] p.1) ∧
    (joinSchema joinSwapEx).map Prod.fst = ["x", "y"] ∧
    assemble joinSwapEx (some [.aint 1, .aint 2], some [.aint 1, .aint 2]) =
      [.aint 2, .aint 1] ∧
    assemble joinSwapEx (some [.aint 1, .aint 2], some [.aint 1, .aint 2]) ≠
      (joinSchema joinSwapEx).map
        (fun p => lookupCell joinSwapEx.lhsFields [PyAtom.aint 1, .aint 2] p.1) := by
  refine ⟨by decide, by decide, by decide, by decide, by decide, by decide⟩

/-- Witness for C5: the outer-join example (single keys `a0`/`b0` with no
substring-colliding field names) satisfies both side conditions, and its
left-present unmatched row is the key value, the left non-key value, then
one `None` placeholder for the right non-key column. -/
theorem c5_witness :
    assemble joinOuterEx (some [PyAtom.aint 1, PyAtom.astr "a"], none) =
      (joinOuterEx.lhsFields.filter (fun c => c ∈ joinOuterEx.onLeft.listpack)).map
        (lookupCell joinOuterEx.lhsFields [PyAtom.aint 1, PyAtom.astr "a"]) ++
      (joinOuterEx.lhsFields.filter (fun c => c ∉ joinOuterEx.onLeft.listpack)).map
        (lookupCell joinOuterEx.lhsFields [PyAtom.aint 1, PyAtom.astr "a"]) ++
      List.replicate
        (joinOuterEx.rhsFields.filter (fun c => c ∉ joinOuterEx.onRight.listpack)).length
        PyAtom.anone :=
  (c5_join_schema_row_order joinOuterEx (by decide) (by decide) (by decide)
    (by decide) (by decide) (by decide)).2.2.2.1 [PyAtom.aint 1, PyAtom.astr "a"]

/-- C8 counterexample: registering two handlers with the identical (hence
equally specific, overlapping) pattern `(Sequence,)` and dispatching on a
`list` argument silently resolves to the first-registered handler — no
ambiguity error exists anywhere in the resolution path. -/
theorem c8_counterexample :
    resolveHandler [([DisTy.seqT], 0), ([DisTy.seqT], 1)] [DisTy.listT] =
      some ([DisTy.seqT], 0) := by
  decide

/-- C8 (amended): when two handlers are registered under equally specific
overlapping patterns (here: the identical pattern), the dispatch engine
resolves the tie deterministically to the first-registered handler instead
of raising an ambiguity error. -/
theorem c8_first_registered_wins (pat : List DisTy) (a b : Nat) (args : List DisTy)
    (h : patMatches pat args = true) :
    resolveHandler [(pat, a), (pat, b)] args = some (pat, a) := by
  simp [resolveHandler, h, strictlyMoreSpecific]

/-- Witness for C8: two handlers on the pattern `(Real,)` resolved at an
`int` argument give the first-registered handler. -/
theorem c8_witness :
    resolveHandler [([DisTy.realT], 3), ([DisTy.realT], 4)] [DisTy.intT] =
      some ([DisTy.realT], 3) :=
  c8_first_registered_wins [DisTy.realT] 3 4 [DisTy.intT] (by decide)

/-- Inserting into the sorted prefix permutes consing. -/
theorem sortedInsert_perm {α : Type} (p : String × α) :
    ∀ l : List (String × α), (sortedInsert p l).Perm (p :: l)
  | [] => List.Perm.refl _
  | q :: rest => by
    simp only [sortedInsert]
    by_cases h : p.1 ≤ q.1
    · rw [if_pos h]
    · rw [if_neg h]
      exact ((sortedInsert_perm p rest).cons q).trans (List.Perm.swap p q rest)

/-- The sort underlying `summary` permutes its input. -/
theorem sortPairs_perm {α : Type} : ∀ l : List (String × α), (sortPairs l).Perm l
  | [] => List.Perm.refl _
  | x :: xs => (sortedInsert_perm x (sortPairs xs)).trans ((sortPairs_perm xs).cons x)

/-- Insertion keeps the name-ordering invariant. -/
theorem sortedInsert_sorted {α : Type} (p : String × α) :
    ∀ l : List (String × α), l.Pairwise (fun a b => a.1 ≤ b.1) →
      (sortedInsert p l).Pairwise (fun a b => a.1 ≤ b.1)
  | [], _ => List.pairwise_singleton _ _
  | q :: rest, hs => by
    simp only [sortedInsert]
    by_cases h : p.1 ≤ q.1
    · rw [if_pos h]
      refine List.pairwise_cons.mpr ⟨?_, hs⟩
      intro r hr
      rcases List.mem_cons.mp hr with rfl | hr2
      · exact h
      · exact le_trans h ((List.pairwise_cons.mp hs).1 r hr2)
    · rw [if_neg h]
      have hq := List.pairwise_cons.mp hs
      refine List.pairwise_cons.mpr ⟨?_, sortedInsert_sorted p rest hq.2⟩
      intro r hr
      rcases List.mem_cons.mp ((sortedInsert_perm p rest).mem_iff.mp hr) with rfl | hr2
      · exact le_of_not_le h
      · exact hq.1 r hr2

/-- The sorted keyword pairs are ascending in name. -/
theorem sortPairs_sorted {α : Type} :
    ∀ l : List (String × α), (sortPairs l).Pairwise (fun a b => a.1 ≤ b.1)
  | [] => List.Pairwise.nil
  | x :: xs => sortedInsert_sorted x (sortPairs xs) (sortPairs_sorted xs)

/-- Two permuted lists of pairs that are both strictly ascending in their
first components are equal. -/
theorem strictPairwise_perm_eq {α : Type} :
    ∀ l₁ l₂ : List (String × α), l₁.Perm l₂ →
      l₁.Pairwise (fun a b => a.1 < b.1) → l₂.Pairwise (fun a b => a.1 < b.1) →
      l₁ = l₂
  | [], l₂, hp, _, _ => hp.symm.eq_nil.symm ▸ rfl
  | a :: t, l₂, hp, h1, h2 => by
    match l₂ with
    | [] => exact absurd hp.eq_nil (by simp)
    | b :: t2 =>
      have ha2 : a ∈ b :: t2 := hp.mem_iff.mp (List.mem_cons_self a t)
      have hab : a = b := by
        rcases List.mem_cons.mp ha2 with h | h
        · exact h
        · have hb : b ∈ a :: t := hp.symm.mem_iff.mp (List.mem_cons_self b t2)
          rcases List.mem_cons.mp hb with h2b | h2b
          · exact h2b.symm
          · have hlt1 : b.1 < a.1 := (List.pairwise_cons.mp h2).1 a h
            have hlt2 : a.1 < b.1 := (List.pairwise_cons.mp h1).1 b h2b
            exact absurd hlt2 (lt_asymm hlt1)
      subst hab
      rw [strictPairwise_perm_eq t t2 hp.cons_inv
        (List.pairwise_cons.mp h1).2 (List.pairwise_cons.mp h2).2]

/-- C10: `summary(**kwargs)` sorts its named reductions alphabetically at
construction: the resulting field order (and hence the order of the
computed result components, which follow `values`) is the ascending
alphabetical order of the names, independent of the order in which the
keyword arguments were given — permuting a duplicate-free keyword list
leaves the constructed `Summary` unchanged, the names come out sorted, and
the name/value pairing is preserved. -/
theorem c10_summary_alphabetical {α : Type} :
    (∀ l l' : List (String × α), (l.map Prod.fst).Nodup → l.Perm l' →
      summaryExpr l = summaryExpr l') ∧
    (∀ l : List (String × α),
      (summaryExpr l).names.Pairwise (· ≤ ·) ∧
      (summaryExpr l).names.Perm (l.map Prod.fst) ∧
      ((summaryExpr l).names.zip (summaryExpr l).values).Perm l) := by
  constructor
  · intro l l' hnd hperm
    have hkey : sortPairs l = sortPairs l' := by
      have h1 := sortPairs_perm l
      have h2 := sortPairs_perm (α := α) l'
      have hp : (sortPairs l).Perm (sortPairs l') := h1.trans (hperm.trans h2.symm)
      have hnd1 : ((sortPairs l).map Prod.fst).Nodup :=
        ((h1.map Prod.fst).nodup_iff).mpr hnd
      have hnd2 : ((sortPairs l').map Prod.fst).Nodup :=
        (((h2.trans hperm.symm).map Prod.fst).nodup_iff).mpr hnd
      have hne1 : (sortPairs l).Pairwise (fun a b => a.1 ≠ b.1) :=
        List.pairwise_map.mp hnd1
      have hne2 : (sortPairs l').Pairwise (fun a b => a.1 ≠ b.1) :=
        List.pairwise_map.mp hnd2
      refine strictPairwise_perm_eq _ _ hp ?_ ?_
      · exact ((sortPairs_sorted l).and hne1).imp
          (fun h => lt_of_le_of_ne h.1 h.2)
      · exact ((sortPairs_sorted l').and hne2).imp
          (fun h => lt_of_le_of_ne h.1 h.2)
    simp [summaryExpr, hkey]
  · intro l
    refine ⟨?_, ?_, ?_⟩
    · exact List.pairwise_map.mpr (sortPairs_sorted l)
    · exact (sortPairs_perm l).map Prod.fst
    · have hz : ((sortPairs l).map Prod.fst).zip ((sortPairs l).map Prod.snd) =
          sortPairs l := (List.zip_of_prod rfl rfl).symm
      exact hz ▸ sortPairs_perm l

/-- Witness for C10: the two orderings of `summary(b=..., a=...)` build
the identical `Summary`, with names `[a, b]`. -/
theorem c10_witness :
    summaryExpr [("b", (2 : Int)), ("a", 1)] = summaryExpr [("a", (1 : Int)), ("b", 2)] :=
  c10_summary_alphabetical.1 [("b", 2), ("a", 1)] [("a", 1), ("b", 2)]
    (by decide) (by decide)
